import Mathlib

set_option maxRecDepth 8000

/-!
Verification of the INI-Handler configuration engine (ini_file.cpp).

Strings are modelled as lists of characters; a file is the list of its
lines (std::getline already strips the newline, and save appends one
newline per emitted line, so per-line equality is byte-for-byte
equality of the persisted text).

The nested std::map / std::unordered_map holding _data and _index is
modelled extensionally as a function from section names to an optional
inner map; a section is present exactly when the outer lookup returns
some, matching _data.count(section).
-/

/-- Characters stripped by IniFile::trim (the set handed to
find_first_not_of / find_last_not_of). -/
def isWS (c : Char) : Bool :=
  c == ' ' || c == '\t' || c == '\r' || c == '\n'

/-- IniFile::trim: the substring between find_first_not_of and
find_last_not_of, empty when every character is whitespace. -/
def trim (s : List Char) : List Char :=
  ((s.dropWhile isWS).reverse.dropWhile isWS).reverse

/-- IniFile::is_comment, applied by load/save to the trimmed line. -/
def is_comment (l : List Char) : Bool :=
  l.isEmpty || l.head? == some ';' || l.head? == some '#'

/-- Position of the first character satisfying p
(std::string::find and find_first_of; none models npos). -/
def findChar (p : Char → Bool) : List Char → Option Nat
  | [] => none
  | c :: cs => if p c then some 0 else (findChar p cs).map (· + 1)

/-- The nested map shape of _data and _index. -/
def Table (α : Type) : Type :=
  List Char → Option (List Char → Option α)

/-- The state of the two tables after m[sec][key] = v
(operator[] creates the section when missing). -/
def insert2 {α : Type} (m : Table α) (sec key : List Char) (v : α) : Table α :=
  fun s =>
    if s = sec then
      some (fun k =>
        if k = key then some v
        else
          match m sec with
          | some inner => inner k
          | none => none)
    else m s

/-- m.at(sec).at(key) guarded by the two count checks: some value
exactly when the section exists and holds the key. -/
def lookup2 {α : Type} (m : Table α) (sec key : List Char) : Option α :=
  match m sec with
  | some inner => inner key
  | none => none

/-- A cleared table (after _data.clear() / _index.clear()). -/
def emptyTable {α : Type} : Table α := fun _ => none

/-- The in-memory parse state built by IniFile::load: _data, _index,
the current_section local, and the running line counter.  The raw
line buffer _lines is the input file itself (every line is pushed
verbatim), so it is not threaded through the state. -/
structure St where
  data : Table (List Char)
  index : Table Nat
  cur : List Char
  lineNum : Nat

/-- The body of the while loop of IniFile::load for one line. -/
def processLine (st : St) (line : List Char) : St :=
  let t := trim line
  if t = [] ∨ is_comment t then
    { st with lineNum := st.lineNum + 1 }
  else if t.head? = some '[' ∧ t.getLast? = some ']' then
    { st with cur := (t.drop 1).dropLast, lineNum := st.lineNum + 1 }
  else
    match findChar (fun c => c == '=') t with
    | none => { st with lineNum := st.lineNum + 1 }
    | some pos =>
      let key := trim (t.take pos)
      let rawValue := trim (t.drop (pos + 1))
      let value :=
        match findChar (fun c => c == ';' || c == '#') rawValue with
        | none => rawValue
        | some cpos => trim (rawValue.take cpos)
      if key = [] then { st with lineNum := st.lineNum + 1 }
      else
        { st with
            data := insert2 st.data st.cur key value
            index := insert2 st.index st.cur key st.lineNum
            lineNum := st.lineNum + 1 }

/-- Running the load loop from a given state over a list of lines. -/
def loadFrom (st : St) (f : List (List Char)) : St :=
  f.foldl processLine st

/-- The state load starts from after clearing _data, _lines, _index:
empty tables, empty current_section, line counter 0. -/
def initSt : St :=
  { data := emptyTable, index := emptyTable, cur := [], lineNum := 0 }

/-- IniFile::load of a whole (successfully opened) file. -/
def loadFile (f : List (List Char)) : St :=
  loadFrom initSt f

/-- The loop of IniFile::save: walk the raw line buffer, re-deriving
the current section, emit tracked key lines normalized from _data and
everything else verbatim. -/
def saveLines (d : Table (List Char)) (cur : List Char) :
    List (List Char) → List (List Char)
  | [] => []
  | line :: rest =>
    let t := trim line
    if t = [] ∨ is_comment t then
      line :: saveLines d cur rest
    else if t.head? = some '[' ∧ t.getLast? = some ']' then
      line :: saveLines d ((t.drop 1).dropLast) rest
    else
      match findChar (fun c => c == '=') t with
      | none => line :: saveLines d cur rest
      | some pos =>
        let key := trim (t.take pos)
        if key = [] then line :: saveLines d cur rest
        else
          match lookup2 d cur key with
          | some v => (key ++ ' ' :: '=' :: ' ' :: v) :: saveLines d cur rest
          | none => line :: saveLines d cur rest

/-- Error text thrown by get_value when the section is missing. -/
def section_err (sec fn : List Char) : List Char :=
  "Error retrieving [".data ++ sec ++ "] from \x27".data ++ fn ++ "\x27.".data

/-- Error text thrown by get_value when the section exists but the key
is missing. -/
def key_err (key sec : List Char) : List Char :=
  "Error retrieving \x27".data ++ key ++ "\x27 from section [".data ++ sec ++ "].".data

/-- IniFile::get_value: find the section, then the key, throwing the
two distinct runtime_error messages on the two failure paths. -/
def get_value (d : Table (List Char)) (fn sec key : List Char) :
    Except (List Char) (List Char) :=
  match d sec with
  | none => .error (section_err sec fn)
  | some inner =>
    match inner key with
    | none => .error (key_err key sec)
    | some v => .ok v

/-- IniFile::string_to_bool: lowercase the value and compare against
the three accepted spellings. -/
def string_to_bool (v : List Char) : Bool :=
  let lower := v.map Char.toLower
  lower == "true".data || lower == "t".data || lower == "1".data

/-- IniFile::get_bool_value = string_to_bool over get_value. -/
def get_bool_value (d : Table (List Char)) (fn sec key : List Char) :
    Except (List Char) Bool :=
  (get_value d fn sec key).map string_to_bool

/-- The observable state of the config store: the filename, the file
visible on disk (none when it cannot be opened for reading), the three
in-memory structures and the pending-changes flag. -/
structure Store where
  filename : List Char
  disk : Option (List (List Char))
  data : Table (List Char)
  index : Table Nat
  lines : List (List Char)
  pending : Bool

/-- IniFile::load as a state transformer: the two guard checks throw
before anything is cleared, so on either failure the incoming store is
returned untouched; on success the three structures are rebuilt from
the file. -/
def load_store (st : Store) : Option (List Char) × Store :=
  if st.filename = [] then
    (some ("Null value filename passed for load.".data), st)
  else
    match st.disk with
    | none => (some ("Cannot open ini file ".data ++ st.filename ++ ".".data), st)
    | some f =>
      let r := loadFile f
      (none, { st with data := r.data, index := r.index, lines := f })

/-- IniFile::save as a state transformer: throws when the filename is
empty, otherwise rewrites the disk image from the raw line buffer. -/
def save_store (st : Store) : Option (List Char) × Store :=
  if st.filename = [] then
    (some ("Null value filename passed for save.".data), st)
  else
    (none, { st with disk := some (saveLines st.data [] st.lines) })

/-- IniFile::commit_changes: save and clear the flag only when pending
changes exist; a save failure propagates before the flag is cleared. -/
def commit_changes (st : Store) : Option (List Char) × Store :=
  if st.pending then
    match save_store st with
    | (some e, st2) => (some e, st2)
    | (none, st2) => (none, { st2 with pending := false })
  else (none, st)

/-- IniFile::set_string_value: overwrite the entry and raise the
pending-changes flag; no I/O. -/
def set_string_value (st : Store) (sec key v : List Char) : Store :=
  { st with data := insert2 st.data sec key v, pending := true }


theorem mem_of_head? {α : Type} {l : List α} {c : α} (h : l.head? = some c) : c ∈ l := by
  cases l with
  | nil => simp at h
  | cons a as => simp at h; simp [h]

theorem head?_append_left {α : Type} {l : List α} (r : List α) (h : l ≠ []) :
    (l ++ r).head? = l.head? := by
  cases l with
  | nil => exact absurd rfl h
  | cons a as => rfl

theorem getLast?_append_right {α : Type} (l : List α) {r : List α} (h : r ≠ []) :
    (l ++ r).getLast? = r.getLast? := by
  rw [← List.head?_reverse, ← List.head?_reverse, List.reverse_append]
  exact head?_append_left _ (by simpa using h)

theorem dropWhile_head_false {p : Char → Bool} {l : List Char} {c : Char}
    (h : l.head? = some c) (hp : p c = false) : l.dropWhile p = l := by
  cases l with
  | nil => rfl
  | cons a as =>
    simp at h
    subst h
    simp [List.dropWhile_cons, hp]

theorem head?_dropWhile_false {p : Char → Bool} {l : List Char} {c : Char}
    (h : (l.dropWhile p).head? = some c) : p c = false := by
  induction l with
  | nil => simp at h
  | cons a as ih =>
    rw [List.dropWhile_cons] at h
    cases hpa : p a with
    | true => exact ih (by simpa [hpa] using h)
    | false =>
      simp only [hpa, Bool.false_eq_true, if_false, List.head?_cons,
        Option.some.injEq] at h
      subst h
      exact hpa

theorem dropWhile_decomp (p : Char → Bool) (l : List Char) :
    ∃ us, l = us ++ l.dropWhile p ∧ ∀ c ∈ us, p c = true := by
  induction l with
  | nil => exact ⟨[], rfl, by simp⟩
  | cons a as ih =>
    by_cases hp : p a = true
    · obtain ⟨us, h1, h2⟩ := ih
      refine ⟨a :: us, ?_, ?_⟩
      · simp [List.dropWhile_cons, hp, ← h1]
      · intro c hc
        rcases List.mem_cons.mp hc with hc | hc
        · exact hc ▸ hp
        · exact h2 c hc
    · refine ⟨[], ?_, by simp⟩
      simp [List.dropWhile_cons, hp]

theorem mem_dropWhile {p : Char → Bool} {l : List Char} {c : Char}
    (h : c ∈ l.dropWhile p) : c ∈ l := by
  obtain ⟨us, h1, _⟩ := dropWhile_decomp p l
  rw [h1]
  exact List.mem_append_right us h

theorem findChar_append_of {p : Char → Bool} {k : List Char}
    (hk : ∀ c ∈ k, p c = false) (r : List Char) :
    findChar p (k ++ r) = (findChar p r).map (· + k.length) := by
  induction k with
  | nil => simp [Option.map_id']
  | cons a as ih =>
    have ha : p a = false := hk a (by simp)
    have has : ∀ c ∈ as, p c = false := fun c hc => hk c (by simp [hc])
    rw [List.cons_append]
    show (if p a then some 0 else (findChar p (as ++ r)).map (· + 1)) = _
    rw [ha, if_neg (by simp), ih has]
    cases findChar p r with
    | none => simp
    | some n =>
      simp only [Option.map_some', Option.some.injEq, List.length_cons]
      omega

theorem findChar_none_iff {p : Char → Bool} {l : List Char} :
    findChar p l = none ↔ ∀ c ∈ l, p c = false := by
  induction l with
  | nil => simp [findChar]
  | cons a as ih =>
    cases hpa : p a with
    | true => simp [findChar, hpa]
    | false =>
      simp only [findChar, hpa, Bool.false_eq_true, if_false,
        Option.map_eq_none', ih, List.mem_cons]
      constructor
      · intro h c hc
        rcases hc with hc | hc
        · subst hc; exact hpa
        · exact h c hc
      · intro h c hc
        exact h c (Or.inr hc)

theorem findChar_take_false {p : Char → Bool} {l : List Char} {n : Nat}
    (h : findChar p l = some n) : ∀ c ∈ l.take n, p c = false := by
  induction l generalizing n with
  | nil => simp
  | cons a as ih =>
    cases hpa : p a with
    | true =>
      simp [findChar, hpa] at h
      simp [← h]
    | false =>
      simp only [findChar, hpa, Bool.false_eq_true, if_false] at h
      cases hf : findChar p as with
      | none => simp [hf] at h
      | some m =>
        simp [hf] at h
        subst h
        intro c hc
        rcases List.mem_cons.mp (by simpa [List.take_succ_cons] using hc) with hc | hc
        · subst hc; exact hpa
        · exact ih hf c hc

theorem findChar_take_eq_takeWhile {p : Char → Bool} {l : List Char} {n : Nat}
    (h : findChar p l = some n) : l.take n = l.takeWhile (fun c => ! p c) := by
  induction l generalizing n with
  | nil => simp
  | cons a as ih =>
    cases hpa : p a with
    | true =>
      simp [findChar, hpa] at h
      simp [← h, List.takeWhile_cons, hpa]
    | false =>
      simp only [findChar, hpa, Bool.false_eq_true, if_false] at h
      cases hf : findChar p as with
      | none => simp [hf] at h
      | some m =>
        simp [hf] at h
        subst h
        simp [List.take_succ_cons, List.takeWhile_cons, hpa, ih hf]

theorem findChar_drop_eq {p : Char → Bool} {l : List Char} {n : Nat}
    (h : findChar p l = some n) :
    l.drop (n + 1) = (l.dropWhile (fun c => ! p c)).drop 1 := by
  induction l generalizing n with
  | nil => simp
  | cons a as ih =>
    cases hpa : p a with
    | true =>
      simp [findChar, hpa] at h
      simp [← h, List.dropWhile_cons, hpa]
    | false =>
      simp only [findChar, hpa, Bool.false_eq_true, if_false] at h
      cases hf : findChar p as with
      | none => simp [hf] at h
      | some m =>
        simp [hf] at h
        subst h
        simp [List.drop_succ_cons, List.dropWhile_cons, hpa, ih hf]

theorem trim_nil : trim [] = [] := rfl

theorem trim_head_not_ws {s : List Char} {c : Char}
    (h : (trim s).head? = some c) : isWS c = false := by
  unfold trim at h
  set u := s.dropWhile isWS with hu
  obtain ⟨us, h1, h2⟩ := dropWhile_decomp isWS u.reverse
  set w := u.reverse.dropWhile isWS with hw
  have hwne : w.reverse ≠ [] := by
    intro hnil
    rw [hnil] at h
    simp at h
  have hu2 : u = w.reverse ++ us.reverse := by
    have := congrArg List.reverse h1
    simpa [List.reverse_append] using this
  have hhead : u.head? = some c := by
    rw [hu2, head?_append_left _ hwne]
    exact h
  exact head?_dropWhile_false (by rw [← hu]; exact hhead)

theorem trim_last_not_ws {s : List Char} {c : Char}
    (h : (trim s).getLast? = some c) : isWS c = false := by
  unfold trim at h
  rw [← List.head?_reverse, List.reverse_reverse] at h
  exact head?_dropWhile_false h

theorem trim_eq_self {s : List Char}
    (h1 : ∀ c, s.head? = some c → isWS c = false)
    (h2 : ∀ c, s.getLast? = some c → isWS c = false) :
    trim s = s := by
  cases s with
  | nil => rfl
  | cons a as =>
    have hd : (a :: as).dropWhile isWS = a :: as :=
      dropWhile_head_false rfl (h1 a rfl)
    unfold trim
    rw [hd]
    have hrev : (a :: as).reverse ≠ [] := by simp
    cases hc : (a :: as).reverse.head? with
    | none => simp at hc
    | some c =>
      have : isWS c = false := h2 c (by rw [← List.head?_reverse]; exact hc)
      rw [dropWhile_head_false hc this, List.reverse_reverse]

theorem trim_idem (s : List Char) : trim (trim s) = trim s :=
  trim_eq_self (fun _ h => trim_head_not_ws h) (fun _ h => trim_last_not_ws h)

theorem mem_trim {s : List Char} {c : Char} (h : c ∈ trim s) : c ∈ s := by
  unfold trim at h
  rw [List.mem_reverse] at h
  have h2 := mem_dropWhile h
  rw [List.mem_reverse] at h2
  exact mem_dropWhile h2

theorem trim_head_of {s : List Char} {c : Char}
    (h : s.head? = some c) (hc : isWS c = false) : (trim s).head? = some c := by
  unfold trim
  rw [dropWhile_head_false h hc]
  obtain ⟨us, h1, h2⟩ := dropWhile_decomp isWS s.reverse
  set w := s.reverse.dropWhile isWS with hw
  have hs2 : s = w.reverse ++ us.reverse := by
    have := congrArg List.reverse h1
    simpa [List.reverse_append] using this
  have hwne : w.reverse ≠ [] := by
    intro hnil
    rw [hnil] at hs2
    simp at hs2
    have hcs : c ∈ s := mem_of_head? h
    rw [hs2, List.mem_reverse] at hcs
    rw [h2 c hcs] at hc
    exact Bool.true_eq_false.mp hc
  rw [← head?_append_left us.reverse hwne, ← hs2]
  exact h

theorem trim_key_pad {k : List Char} (ht : trim k = k) (hne : k ≠ []) :
    trim (k ++ [' ']) = k := by
  obtain ⟨a, as, rfl⟩ : ∃ a as, k = a :: as := by
    cases k with
    | nil => exact absurd rfl hne
    | cons a as => exact ⟨a, as, rfl⟩
  have ha : isWS a = false := trim_head_not_ws (s := a :: as) (by rw [ht]; rfl)
  have h1 : ((a :: as) ++ [' ']).dropWhile isWS = (a :: as) ++ [' '] :=
    dropWhile_head_false rfl ha
  unfold trim
  rw [h1, List.reverse_append]
  show ((' ' :: (a :: as).reverse).dropWhile isWS).reverse = a :: as
  rw [List.dropWhile_cons, if_pos (show isWS ' ' = true from rfl)]
  cases hl : (a :: as).reverse.head? with
  | none => simp at hl
  | some b =>
    have hb : isWS b = false := by
      refine trim_last_not_ws (s := a :: as) ?_
      rw [ht, ← List.head?_reverse]
      exact hl
    rw [dropWhile_head_false hl hb, List.reverse_reverse]

theorem trim_val_pad {v : List Char} (ht : trim v = v) :
    trim (' ' :: v) = v := by
  unfold trim
  rw [List.dropWhile_cons, if_pos (show isWS ' ' = true from rfl)]
  exact ht

/-- The section tracking shared by the load and save walks: a header
line replaces the current section, every other line keeps it. -/
def lineNewCur (cur line : List Char) : List Char :=
  let t := trim line
  if t = [] ∨ is_comment t then cur
  else if t.head? = some '[' ∧ t.getLast? = some ']' then (t.drop 1).dropLast
  else cur

/-- The entry (section, key, value) a line contributes during load:
some exactly when the line is a tracked key-value line. -/
def lineEvent (cur line : List Char) :
    Option (List Char × List Char × List Char) :=
  let t := trim line
  if t = [] ∨ is_comment t then none
  else if t.head? = some '[' ∧ t.getLast? = some ']' then none
  else
    match findChar (fun c => c == '=') t with
    | none => none
    | some pos =>
      let key := trim (t.take pos)
      let rawValue := trim (t.drop (pos + 1))
      let value :=
        match findChar (fun c => c == ';' || c == '#') rawValue with
        | none => rawValue
        | some cpos => trim (rawValue.take cpos)
      if key = [] then none else some (cur, key, value)

/-- The single line save writes for one raw line. -/
def saveOut (d : Table (List Char)) (cur line : List Char) : List Char :=
  let t := trim line
  if t = [] ∨ is_comment t then line
  else if t.head? = some '[' ∧ t.getLast? = some ']' then line
  else
    match findChar (fun c => c == '=') t with
    | none => line
    | some pos =>
      let key := trim (t.take pos)
      if key = [] then line
      else
        match lookup2 d cur key with
        | some v => key ++ ' ' :: '=' :: ' ' :: v
        | none => line

theorem processLine_lineNum (st : St) (line : List Char) :
    (processLine st line).lineNum = st.lineNum + 1 := by
  unfold processLine
  by_cases h1 : trim line = [] ∨ is_comment (trim line)
  · simp [h1]
  · by_cases h2 : (trim line).head? = some '[' ∧ (trim line).getLast? = some ']'
    · simp [h1, h2]
    · cases h3 : findChar (fun c => c == '=') (trim line) with
      | none => simp [h1, h2, h3]
      | some pos =>
        by_cases h4 : trim ((trim line).take pos) = []
        · simp [h1, h2, h3, h4]
        · simp [h1, h2, h3, h4]

theorem processLine_cur (st : St) (line : List Char) :
    (processLine st line).cur = lineNewCur st.cur line := by
  unfold processLine lineNewCur
  by_cases h1 : trim line = [] ∨ is_comment (trim line)
  · simp [h1]
  · by_cases h2 : (trim line).head? = some '[' ∧ (trim line).getLast? = some ']'
    · simp [h1, h2]
    · cases h3 : findChar (fun c => c == '=') (trim line) with
      | none => simp [h1, h2, h3]
      | some pos =>
        by_cases h4 : trim ((trim line).take pos) = []
        · simp [h1, h2, h3, h4]
        · simp [h1, h2, h3, h4]

theorem processLine_data (st : St) (line : List Char) :
    (processLine st line).data =
      match lineEvent st.cur line with
      | none => st.data
      | some e => insert2 st.data e.1 e.2.1 e.2.2 := by
  unfold processLine lineEvent
  by_cases h1 : trim line = [] ∨ is_comment (trim line)
  · simp [h1]
  · by_cases h2 : (trim line).head? = some '[' ∧ (trim line).getLast? = some ']'
    · simp [h1, h2]
    · cases h3 : findChar (fun c => c == '=') (trim line) with
      | none => simp [h1, h2, h3]
      | some pos =>
        by_cases h4 : trim ((trim line).take pos) = []
        · simp [h1, h2, h3, h4]
        · simp [h1, h2, h3, h4]

theorem processLine_index (st : St) (line : List Char) :
    (processLine st line).index =
      match lineEvent st.cur line with
      | none => st.index
      | some e => insert2 st.index e.1 e.2.1 st.lineNum := by
  unfold processLine lineEvent
  by_cases h1 : trim line = [] ∨ is_comment (trim line)
  · simp [h1]
  · by_cases h2 : (trim line).head? = some '[' ∧ (trim line).getLast? = some ']'
    · simp [h1, h2]
    · cases h3 : findChar (fun c => c == '=') (trim line) with
      | none => simp [h1, h2, h3]
      | some pos =>
        by_cases h4 : trim ((trim line).take pos) = []
        · simp [h1, h2, h3, h4]
        · simp [h1, h2, h3, h4]

theorem saveLines_cons (d : Table (List Char)) (cur line : List Char)
    (rest : List (List Char)) :
    saveLines d cur (line :: rest) =
      saveOut d cur line :: saveLines d (lineNewCur cur line) rest := by
  rw [saveLines]
  unfold saveOut lineNewCur
  by_cases h1 : trim line = [] ∨ is_comment (trim line)
  · simp [h1]
  · by_cases h2 : (trim line).head? = some '[' ∧ (trim line).getLast? = some ']'
    · simp [h1, h2]
    · cases h3 : findChar (fun c => c == '=') (trim line) with
      | none => simp [h1, h2, h3]
      | some pos =>
        by_cases h4 : trim ((trim line).take pos) = []
        · simp [h1, h2, h3, h4]
        · cases h5 : lookup2 d cur (trim ((trim line).take pos)) with
          | none => simp [h1, h2, h3, h4, h5]
          | some v => simp [h1, h2, h3, h4, h5]

theorem loadFrom_cons (st : St) (line : List Char) (rest : List (List Char)) :
    loadFrom st (line :: rest) = loadFrom (processLine st line) rest := rfl

theorem loadFrom_append (st : St) (a b : List (List Char)) :
    loadFrom st (a ++ b) = loadFrom (loadFrom st a) b := by
  unfold loadFrom
  rw [List.foldl_append]

theorem loadFrom_lineNum (st : St) (f : List (List Char)) :
    (loadFrom st f).lineNum = st.lineNum + f.length := by
  induction f generalizing st with
  | nil => rfl
  | cons line rest ih =>
    rw [loadFrom_cons, ih, processLine_lineNum]
    simp
    omega

theorem lookup2_insert2 {α : Type} (m : Table α) (sec key : List Char) (v : α)
    (s k : List Char) :
    lookup2 (insert2 m sec key v) s k =
      if s = sec ∧ k = key then some v else lookup2 m s k := by
  unfold lookup2 insert2
  by_cases hs : s = sec
  · subst hs
    by_cases hk : k = key
    · simp [hk]
    · simp [hk]
  · simp [hs]

theorem isSome_insert2 {α : Type} (m : Table α) (sec key : List Char) (v : α)
    (s : List Char) :
    ((insert2 m sec key v) s).isSome =
      if s = sec then true else (m s).isSome := by
  unfold insert2
  by_cases hs : s = sec
  · simp [hs]
  · simp [hs]

/-- The sequence of entry insertions load performs over a list of
lines, starting from a given current section. -/
def loadEvents (cur : List Char) :
    List (List Char) → List (List Char × List Char × List Char)
  | [] => []
  | line :: rest =>
    match lineEvent cur line with
    | none => loadEvents (lineNewCur cur line) rest
    | some e => e :: loadEvents (lineNewCur cur line) rest

/-- Left-biased choice on options (first insertion that decides a
lookup wins). -/
def orO {α : Type} : Option α → Option α → Option α
  | some v, _ => some v
  | none, b => b

theorem orO_none_right {α : Type} (a : Option α) : orO a none = a := by
  cases a <;> rfl

theorem orO_assoc {α : Type} (a b c : Option α) :
    orO (orO a b) c = orO a (orO b c) := by
  cases a <;> cases b <;> rfl

/-- The value of the last event inserting (sec, key). -/
def lastVal (evs : List (List Char × List Char × List Char))
    (sec key : List Char) : Option (List Char) :=
  evs.foldl (fun acc e => if e.1 = sec ∧ e.2.1 = key then some e.2.2 else acc)
    none

theorem lastVal_foldl (evs : List (List Char × List Char × List Char))
    (a : Option (List Char)) (sec key : List Char) :
    evs.foldl (fun acc e => if e.1 = sec ∧ e.2.1 = key then some e.2.2 else acc) a
      = orO (lastVal evs sec key) a := by
  induction evs generalizing a with
  | nil => rfl
  | cons e evs ih =>
    show List.foldl _ (if e.1 = sec ∧ e.2.1 = key then some e.2.2 else a) evs = _
    rw [ih]
    have hr : lastVal (e :: evs) sec key =
        orO (lastVal evs sec key)
          (if e.1 = sec ∧ e.2.1 = key then some e.2.2 else none) := by
      show List.foldl _ (if e.1 = sec ∧ e.2.1 = key then some e.2.2 else none) evs = _
      rw [ih]
    rw [hr, orO_assoc]
    by_cases hc : e.1 = sec ∧ e.2.1 = key
    · simp [hc, orO]
    · simp [hc, orO]

theorem lastVal_cons (e : List Char × List Char × List Char)
    (evs : List (List Char × List Char × List Char)) (sec key : List Char) :
    lastVal (e :: evs) sec key =
      orO (lastVal evs sec key)
        (if e.1 = sec ∧ e.2.1 = key then some e.2.2 else none) := by
  show List.foldl _ (if e.1 = sec ∧ e.2.1 = key then some e.2.2 else none) evs = _
  rw [lastVal_foldl]

theorem lookup2_loadFrom (st : St) (f : List (List Char)) (s k : List Char) :
    lookup2 (loadFrom st f).data s k =
      orO (lastVal (loadEvents st.cur f) s k) (lookup2 st.data s k) := by
  induction f generalizing st with
  | nil => rfl
  | cons line rest ih =>
    rw [loadFrom_cons, ih (processLine st line), processLine_cur,
      processLine_data]
    cases he : lineEvent st.cur line with
    | none => simp only [loadEvents, he]
    | some e =>
      simp only [loadEvents, he, lastVal_cons, orO_assoc]
      rw [lookup2_insert2]
      congr 1
      by_cases hc : s = e.1 ∧ k = e.2.1
      · rw [if_pos hc, if_pos ⟨hc.1.symm, hc.2.symm⟩]
        rfl
      · rw [if_neg hc, if_neg (fun hx => hc ⟨hx.1.symm, hx.2.symm⟩)]
        rfl

theorem isSome_loadFrom (st : St) (f : List (List Char)) (s : List Char) :
    ((loadFrom st f).data s).isSome =
      ((st.data s).isSome
        || (loadEvents st.cur f).any (fun e => e.1 == s)) := by
  induction f generalizing st with
  | nil => simp [loadFrom, loadEvents]
  | cons line rest ih =>
    rw [loadFrom_cons, ih (processLine st line), processLine_cur,
      processLine_data]
    cases he : lineEvent st.cur line with
    | none => simp only [loadEvents, he]
    | some e =>
      simp only [loadEvents, he, List.any_cons]
      rw [isSome_insert2]
      by_cases hs : s = e.1
      · simp [hs]
      · have : (e.1 == s) = false := by
          simp
          intro hx
          exact hs hx.symm
        simp [hs, this]

theorem lookup2_mono (st : St) (f : List (List Char)) (s k : List Char)
    (h : (lookup2 st.data s k).isSome = true) :
    (lookup2 (loadFrom st f).data s k).isSome = true := by
  induction f generalizing st with
  | nil => exact h
  | cons line rest ih =>
    rw [loadFrom_cons]
    apply ih
    rw [processLine_data]
    cases he : lineEvent st.cur line with
    | none => exact h
    | some e =>
      rw [lookup2_insert2]
      by_cases hc : s = e.1 ∧ k = e.2.1
      · rw [if_pos hc]; rfl
      · rw [if_neg hc]; exact h

theorem tracked_all (f : List (List Char)) (st : St) :
    ∀ e ∈ loadEvents st.cur f,
      (lookup2 (loadFrom st f).data e.1 e.2.1).isSome = true := by
  induction f generalizing st with
  | nil => intro e he; simp [loadEvents] at he
  | cons line rest ih =>
    intro e he
    rw [loadFrom_cons]
    cases hev : lineEvent st.cur line with
    | none =>
      simp only [loadEvents, hev] at he
      have hx := ih (processLine st line)
      rw [processLine_cur] at hx
      exact hx e he
    | some e0 =>
      simp only [loadEvents, hev, List.mem_cons] at he
      rcases he with he | he
      · subst he
        apply lookup2_mono
        rw [processLine_data, hev, lookup2_insert2]
        simp
      · have hx := ih (processLine st line)
        rw [processLine_cur] at hx
        exact hx e he

/-- Shape facts about every key load records: produced by trim, free of
the separator, and unable to re-parse as a comment. -/
def GoodKey (k : List Char) : Prop :=
  k ≠ [] ∧ trim k = k ∧ (∀ c ∈ k, (c == '=') = false) ∧
    k.head? ≠ some ';' ∧ k.head? ≠ some '#'

/-- Shape facts about every value load records: produced by trim and
free of inline-comment markers. -/
def GoodVal (v : List Char) : Prop :=
  trim v = v ∧ ∀ c ∈ v, (c == ';') = false ∧ (c == '#') = false

theorem is_comment_false_iff (t : List Char) :
    is_comment t = false ↔
      t.isEmpty = false ∧ t.head? ≠ some ';' ∧ t.head? ≠ some '#' := by
  unfold is_comment
  simp [Bool.or_eq_false_iff, and_assoc]

theorem goodVal_cut {rv : List Char} (hrv : trim rv = rv) :
    GoodVal (match findChar (fun c => c == ';' || c == '#') rv with
      | none => rv
      | some cpos => trim (rv.take cpos)) := by
  cases hf : findChar (fun c => c == ';' || c == '#') rv with
  | none =>
    refine ⟨hrv, fun c hc => ?_⟩
    have hb := findChar_none_iff.mp hf c hc
    exact ⟨(Bool.or_eq_false_iff.mp hb).1, (Bool.or_eq_false_iff.mp hb).2⟩
  | some cpos =>
    refine ⟨trim_idem _, fun c hc => ?_⟩
    have hb := findChar_take_false hf c (mem_trim hc)
    exact ⟨(Bool.or_eq_false_iff.mp hb).1, (Bool.or_eq_false_iff.mp hb).2⟩

theorem goodKey_of {t : List Char} {pos : Nat}
    (htr : trim t = t) (hne : t ≠ []) (hcm : is_comment t = false)
    (h3 : findChar (fun c => c == '=') t = some pos)
    (h4 : trim (t.take pos) ≠ []) :
    GoodKey (trim (t.take pos)) := by
  have hpos : pos ≠ 0 := by
    intro h0
    subst h0
    simp [trim_nil] at h4
  obtain ⟨c0, ts, rfl⟩ : ∃ c0 ts, t = c0 :: ts := by
    cases t with
    | nil => exact absurd rfl hne
    | cons a as => exact ⟨a, as, rfl⟩
  have hws : isWS c0 = false := trim_head_not_ws (s := c0 :: ts) (by rw [htr]; rfl)
  obtain ⟨m, rfl⟩ : ∃ m, pos = m + 1 := ⟨pos - 1, by omega⟩
  have hkh : (trim ((c0 :: ts).take (m + 1))).head? = some c0 :=
    trim_head_of rfl hws
  have hcm2 := (is_comment_false_iff (c0 :: ts)).mp hcm
  refine ⟨h4, trim_idem _, ?_, ?_, ?_⟩
  · intro c hc
    exact findChar_take_false h3 c (mem_trim hc)
  · rw [hkh]
    exact hcm2.2.1
  · rw [hkh]
    exact hcm2.2.2

theorem good_events {cur line : List Char}
    {e : List Char × List Char × List Char}
    (h : lineEvent cur line = some e) :
    GoodKey e.2.1 ∧ GoodVal e.2.2 := by
  unfold lineEvent at h
  by_cases h1 : trim line = [] ∨ is_comment (trim line)
  · simp [h1] at h
  · by_cases h2 : (trim line).head? = some '[' ∧ (trim line).getLast? = some ']'
    · simp [h1, h2] at h
    · cases h3 : findChar (fun c => c == '=') (trim line) with
      | none => simp [h1, h2, h3] at h
      | some pos =>
        by_cases h4 : trim ((trim line).take pos) = []
        · simp [h1, h2, h3, h4] at h
        · simp only [h1, h2, h3, h4, if_false, ite_false] at h
          push_neg at h1
          have hne : trim line ≠ [] := h1.1
          have hcm : is_comment (trim line) = false :=
            Bool.eq_false_iff.mpr h1.2
          rw [Option.some.injEq] at h
          subst h
          exact ⟨goodKey_of (trim_idem line) hne hcm h3 h4,
            goodVal_cut (trim_idem _)⟩

theorem trim_norm_nil {k : List Char} (hktr : trim k = k) (hkne : k ≠ []) :
    trim (k ++ ' ' :: '=' :: ' ' :: []) = k ++ [' ', '='] := by
  obtain ⟨a, as, rfl⟩ : ∃ a as, k = a :: as := by
    cases k with
    | nil => exact absurd rfl hkne
    | cons a as => exact ⟨a, as, rfl⟩
  have hws : isWS a = false := trim_head_not_ws (s := a :: as) (by rw [hktr]; rfl)
  unfold trim
  rw [dropWhile_head_false (l := (a :: as) ++ ' ' :: '=' :: ' ' :: []) rfl hws]
  rw [List.reverse_append]
  show ((' ' :: '=' :: ' ' :: (a :: as).reverse).dropWhile isWS).reverse = _
  rw [List.dropWhile_cons, if_pos (show isWS ' ' = true from rfl)]
  rw [List.dropWhile_cons, if_neg (show ¬isWS '=' = true by decide)]
  simp

theorem trim_norm_cons {k v : List Char} (hktr : trim k = k) (hkne : k ≠ [])
    (hvtr : trim v = v) (hvne : v ≠ []) :
    trim (k ++ ' ' :: '=' :: ' ' :: v) = k ++ ' ' :: '=' :: ' ' :: v := by
  obtain ⟨a, as, rfl⟩ : ∃ a as, k = a :: as := by
    cases k with
    | nil => exact absurd rfl hkne
    | cons a as => exact ⟨a, as, rfl⟩
  have hws : isWS a = false := trim_head_not_ws (s := a :: as) (by rw [hktr]; rfl)
  have hvrne : v.reverse ≠ [] := by simpa using hvne
  obtain ⟨b, hb⟩ : ∃ b, v.reverse.head? = some b := by
    cases hr : v.reverse with
    | nil => exact absurd hr hvrne
    | cons b bs => exact ⟨b, rfl⟩
  have hbws : isWS b = false := by
    refine trim_last_not_ws (s := v) ?_
    rw [hvtr, ← List.head?_reverse]
    exact hb
  unfold trim
  rw [dropWhile_head_false (l := (a :: as) ++ ' ' :: '=' :: ' ' :: v) rfl hws]
  rw [List.reverse_append]
  have hrev : (' ' :: '=' :: ' ' :: v).reverse = v.reverse ++ [' ', '=', ' '] := by
    simp
  rw [hrev, List.append_assoc]
  rw [dropWhile_head_false ((head?_append_left _ hvrne).trans hb) hbws]
  rw [← List.append_assoc, ← hrev, ← List.reverse_append, List.reverse_reverse]

theorem is_comment_head_false {a : Char} (as r : List Char)
    (h1 : a ≠ ';') (h2 : a ≠ '#') :
    is_comment ((a :: as) ++ r) = false := by
  unfold is_comment
  simp [Bool.or_eq_false_iff, h1, h2]

theorem reparse (c : List Char) {k v : List Char}
    (hgk : GoodKey k) (hgv : GoodVal v)
    (hx : ¬(k.head? = some '[' ∧ v.getLast? = some ']')) :
    lineEvent c (k ++ ' ' :: '=' :: ' ' :: v) = some (c, k, v) ∧
      lineNewCur c (k ++ ' ' :: '=' :: ' ' :: v) = c := by
  obtain ⟨hkne, hktr, hkeq, hks, hkh⟩ := hgk
  obtain ⟨hvtr, hvmk⟩ := hgv
  obtain ⟨a, as, rfl⟩ : ∃ a as, k = a :: as := by
    cases k with
    | nil => exact absurd rfl hkne
    | cons a as => exact ⟨a, as, rfl⟩
  have hsa : a ≠ ';' := fun h => hks (by rw [h]; rfl)
  have hha : a ≠ '#' := fun h => hkh (by rw [h]; rfl)
  have hmkv : findChar (fun ch => ch == ';' || ch == '#') v = none :=
    findChar_none_iff.mpr fun ch hc =>
      Bool.or_eq_false_iff.mpr ⟨(hvmk ch hc).1, (hvmk ch hc).2⟩
  by_cases hv : v = []
  · subst hv
    have ht : trim ((a :: as) ++ ' ' :: '=' :: ' ' :: []) =
        (a :: as) ++ [' ', '='] := trim_norm_nil hktr hkne
    have hic : is_comment ((a :: as) ++ [' ', '=']) = false :=
      is_comment_head_false as [' ', '='] hsa hha
    have hcond1 : ¬((a :: as) ++ [' ', '='] = [] ∨
        is_comment ((a :: as) ++ [' ', '=']) = true) := by
      rintro (h | h)
      · simp at h
      · rw [hic] at h
        exact Bool.false_ne_true h
    have hcond2 : ¬(((a :: as) ++ [' ', '=']).head? = some '[' ∧
        ((a :: as) ++ [' ', '=']).getLast? = some ']') := by
      rintro ⟨-, hB⟩
      rw [getLast?_append_right _ (by decide)] at hB
      exact absurd hB (by decide)
    have hfc : findChar (fun ch => ch == '=') ((a :: as) ++ [' ', '=']) =
        some (1 + (a :: as).length) := by
      rw [findChar_append_of hkeq]
      rfl
    have hkey : trim (((a :: as) ++ [' ', '=']).take (1 + (a :: as).length)) =
        a :: as := by
      rw [Nat.add_comm, List.take_append]
      show trim ((a :: as) ++ [' ']) = a :: as
      exact trim_key_pad hktr hkne
    have hdrop : ((a :: as) ++ [' ', '=']).drop (1 + (a :: as).length + 1) =
        [] := by
      have h2 : 1 + (a :: as).length + 1 = (a :: as).length + 2 := by omega
      rw [h2, List.drop_append]
      rfl
    constructor
    · simp only [lineEvent, ht]
      rw [if_neg hcond1, if_neg hcond2, hfc]
      simp only [hkey, hdrop, trim_nil]
      rw [if_neg (show ¬(a :: as = []) by simp)]
      rfl
    · simp only [lineNewCur, ht]
      rw [if_neg hcond1, if_neg hcond2]
  · have ht : trim ((a :: as) ++ ' ' :: '=' :: ' ' :: v) =
        (a :: as) ++ ' ' :: '=' :: ' ' :: v := trim_norm_cons hktr hkne hvtr hv
    have hic : is_comment ((a :: as) ++ ' ' :: '=' :: ' ' :: v) = false :=
      is_comment_head_false as _ hsa hha
    have hcond1 : ¬((a :: as) ++ ' ' :: '=' :: ' ' :: v = [] ∨
        is_comment ((a :: as) ++ ' ' :: '=' :: ' ' :: v) = true) := by
      rintro (h | h)
      · simp at h
      · rw [hic] at h
        exact Bool.false_ne_true h
    have hlast : ((a :: as) ++ ' ' :: '=' :: ' ' :: v).getLast? =
        v.getLast? := by
      rw [getLast?_append_right _ (by simp)]
      show ([' ', '=', ' '] ++ v).getLast? = v.getLast?
      exact getLast?_append_right _ hv
    have hcond2 : ¬(((a :: as) ++ ' ' :: '=' :: ' ' :: v).head? = some '[' ∧
        ((a :: as) ++ ' ' :: '=' :: ' ' :: v).getLast? = some ']') := by
      rintro ⟨hA, hB⟩
      rw [hlast] at hB
      exact hx ⟨hA, hB⟩
    have hfc : findChar (fun ch => ch == '=')
        ((a :: as) ++ ' ' :: '=' :: ' ' :: v) =
        some (1 + (a :: as).length) := by
      rw [findChar_append_of hkeq]
      rfl
    have hkey : trim (((a :: as) ++ ' ' :: '=' :: ' ' :: v).take
        (1 + (a :: as).length)) = a :: as := by
      rw [Nat.add_comm, List.take_append]
      show trim ((a :: as) ++ [' ']) = a :: as
      exact trim_key_pad hktr hkne
    have hraw : trim (((a :: as) ++ ' ' :: '=' :: ' ' :: v).drop
        (1 + (a :: as).length + 1)) = v := by
      have h2 : 1 + (a :: as).length + 1 = (a :: as).length + 2 := by omega
      rw [h2, List.drop_append]
      show trim (' ' :: v) = v
      exact trim_val_pad hvtr
    constructor
    · simp only [lineEvent, ht]
      rw [if_neg hcond1, if_neg hcond2, hfc]
      simp only [hkey, hraw, hmkv]
      rw [if_neg (show ¬(a :: as = []) by simp)]
    · simp only [lineNewCur, ht]
      rw [if_neg hcond1, if_neg hcond2]

theorem lineEvent_sec {cur line : List Char}
    {e : List Char × List Char × List Char}
    (h : lineEvent cur line = some e) : e.1 = cur := by
  unfold lineEvent at h
  by_cases h1 : trim line = [] ∨ is_comment (trim line)
  · simp [h1] at h
  · by_cases h2 : (trim line).head? = some '[' ∧ (trim line).getLast? = some ']'
    · simp [h1, h2] at h
    · cases h3 : findChar (fun c => c == '=') (trim line) with
      | none => simp [h1, h2, h3] at h
      | some pos =>
        by_cases h4 : trim ((trim line).take pos) = []
        · simp [h1, h2, h3, h4] at h
        · simp only [h1, h2, h3, h4, if_false, ite_false,
            Option.some.injEq] at h
          rw [← h]

theorem lineEvent_newCur {cur line : List Char}
    {e : List Char × List Char × List Char}
    (h : lineEvent cur line = some e) : lineNewCur cur line = cur := by
  unfold lineEvent at h
  unfold lineNewCur
  by_cases h1 : trim line = [] ∨ is_comment (trim line)
  · simp [h1]
  · by_cases h2 : (trim line).head? = some '[' ∧ (trim line).getLast? = some ']'
    · simp [h1, h2] at h
    · simp [h1, h2]

theorem saveOut_none (d : Table (List Char)) {cur line : List Char}
    (h : lineEvent cur line = none) : saveOut d cur line = line := by
  unfold lineEvent at h
  unfold saveOut
  by_cases h1 : trim line = [] ∨ is_comment (trim line)
  · simp [h1]
  · by_cases h2 : (trim line).head? = some '[' ∧ (trim line).getLast? = some ']'
    · simp [h1, h2]
    · cases h3 : findChar (fun c => c == '=') (trim line) with
      | none => simp [h1, h2, h3]
      | some pos =>
        by_cases h4 : trim ((trim line).take pos) = []
        · simp [h1, h2, h3, h4]
        · simp [h1, h2, h3, h4] at h

theorem saveOut_some (d : Table (List Char)) {cur line : List Char}
    {e : List Char × List Char × List Char} {w : List Char}
    (h : lineEvent cur line = some e)
    (hw : lookup2 d cur e.2.1 = some w) :
    saveOut d cur line = e.2.1 ++ ' ' :: '=' :: ' ' :: w := by
  unfold lineEvent at h
  unfold saveOut
  by_cases h1 : trim line = [] ∨ is_comment (trim line)
  · simp [h1] at h
  · by_cases h2 : (trim line).head? = some '[' ∧ (trim line).getLast? = some ']'
    · simp [h1, h2] at h
    · cases h3 : findChar (fun c => c == '=') (trim line) with
      | none => simp [h1, h2, h3] at h
      | some pos =>
        by_cases h4 : trim ((trim line).take pos) = []
        · simp [h1, h2, h3, h4] at h
        · simp only [h1, h2, h3, h4, if_false, ite_false,
            Option.some.injEq] at h
          subst h
          simp only [h1, h2, h3, h4, if_false, ite_false]
          have hw2 : lookup2 d cur (trim ((trim line).take pos)) = some w := hw
          rw [hw2]

theorem saveEvents (f : List (List Char)) (D : Table (List Char))
    (cur : List Char)
    (htrack : ∀ e ∈ loadEvents cur f, (lookup2 D e.1 e.2.1).isSome = true)
    (hgood : ∀ s k w, lookup2 D s k = some w → GoodVal w)
    (hhd : ∀ e ∈ loadEvents cur f,
      ¬(e.2.1.head? = some '[' ∧
        ((lookup2 D e.1 e.2.1).getD []).getLast? = some ']')) :
    loadEvents cur (saveLines D cur f) =
      (loadEvents cur f).map
        (fun e => (e.1, e.2.1, (lookup2 D e.1 e.2.1).getD [])) := by
  induction f generalizing cur with
  | nil => rfl
  | cons line rest ih =>
    rw [saveLines_cons]
    cases he : lineEvent cur line with
    | none =>
      rw [saveOut_none D he]
      simp only [loadEvents, he] at htrack hgood hhd ⊢
      exact ih (lineNewCur cur line) htrack hhd
    | some e =>
      have hsec : e.1 = cur := lineEvent_sec he
      have hnc : lineNewCur cur line = cur := lineEvent_newCur he
      have hmem : e ∈ loadEvents cur (line :: rest) := by
        simp only [loadEvents, he]
        exact List.mem_cons_self e _
      obtain ⟨w, hw⟩ : ∃ w, lookup2 D cur e.2.1 = some w := by
        have := htrack e hmem
        rw [hsec] at this
        exact Option.isSome_iff_exists.mp this
      rw [saveOut_some D he hw]
      have hgk := (good_events he).1
      have hgw : GoodVal w := hgood cur e.2.1 w hw
      have hhx : ¬(e.2.1.head? = some '[' ∧ w.getLast? = some ']') := by
        have := hhd e hmem
        rw [hsec, hw] at this
        simpa using this
      have hrp := reparse cur hgk hgw hhx
      simp only [loadEvents, hrp.1, hrp.2, he, hnc, List.map_cons]
      rw [hsec, hw]
      simp only [Option.getD_some]
      refine congrArg (List.cons _) ?_
      refine ih cur ?_ ?_
      · intro e2 he2
        refine htrack e2 ?_
        simp only [loadEvents, he, hnc]
        exact List.mem_cons_of_mem e he2
      · intro e2 he2
        refine hhd e2 ?_
        simp only [loadEvents, he, hnc]
        exact List.mem_cons_of_mem e he2

theorem orO_map {α β : Type} (g : α → β) (a b : Option α) :
    (orO a b).map g = orO (a.map g) (b.map g) := by
  cases a <;> rfl

theorem lastVal_map (evs : List (List Char × List Char × List Char))
    (D : Table (List Char)) (s k : List Char) :
    lastVal (evs.map (fun e => (e.1, e.2.1, (lookup2 D e.1 e.2.1).getD []))) s k
      = (lastVal evs s k).map (fun _ => (lookup2 D s k).getD []) := by
  induction evs with
  | nil => rfl
  | cons e evs ih =>
    rw [List.map_cons, lastVal_cons, lastVal_cons, orO_map, ih]
    congr 1
    by_cases hc : e.1 = s ∧ e.2.1 = k
    · rw [if_pos hc, if_pos (show (e.1, e.2.1, (lookup2 D e.1 e.2.1).getD []).1 = s ∧
        (e.1, e.2.1, (lookup2 D e.1 e.2.1).getD []).2.1 = k from hc)]
      rw [hc.1, hc.2]
      rfl
    · rw [if_neg hc, if_neg (show ¬((e.1, e.2.1, (lookup2 D e.1 e.2.1).getD []).1 = s ∧
        (e.1, e.2.1, (lookup2 D e.1 e.2.1).getD []).2.1 = k) from hc)]
      rfl

theorem hasSec_map (evs : List (List Char × List Char × List Char))
    (D : Table (List Char)) (s : List Char) :
    (evs.map (fun e => (e.1, e.2.1, (lookup2 D e.1 e.2.1).getD []))).any
        (fun e => e.1 == s)
      = evs.any (fun e => e.1 == s) := by
  induction evs with
  | nil => rfl
  | cons e evs ih => simp [ih]

theorem values_good (f : List (List Char)) (st : St)
    (hst : ∀ s k w, lookup2 st.data s k = some w → GoodVal w) :
    ∀ s k w, lookup2 (loadFrom st f).data s k = some w → GoodVal w := by
  induction f generalizing st with
  | nil => exact hst
  | cons line rest ih =>
    rw [loadFrom_cons]
    apply ih
    intro s k w hw
    rw [processLine_data] at hw
    cases he : lineEvent st.cur line with
    | none =>
      rw [he] at hw
      exact hst s k w hw
    | some e =>
      rw [he, lookup2_insert2] at hw
      by_cases hc : s = e.1 ∧ k = e.2.1
      · rw [if_pos hc] at hw
        exact Option.some.inj hw ▸ (good_events he).2
      · rw [if_neg hc] at hw
        exact hst s k w hw

theorem load_save_load (f : List (List Char))
    (hhd : ∀ e ∈ loadEvents [] f,
      ¬(e.2.1.head? = some '[' ∧
        ((lookup2 (loadFile f).data e.1 e.2.1).getD []).getLast? = some ']')) :
    (loadFile (saveLines (loadFile f).data [] f)).data = (loadFile f).data := by
  have htrack : ∀ e ∈ loadEvents [] f,
      (lookup2 (loadFile f).data e.1 e.2.1).isSome = true := tracked_all f initSt
  have hgood : ∀ s k w, lookup2 (loadFile f).data s k = some w → GoodVal w := by
    refine values_good f initSt ?_
    intro s k w hw
    simp [initSt, emptyTable, lookup2] at hw
  have hev := saveEvents f (loadFile f).data [] htrack hgood hhd
  funext s
  have hsome : ((loadFile (saveLines (loadFile f).data [] f)).data s).isSome =
      ((loadFile f).data s).isSome := by
    show ((loadFrom initSt (saveLines (loadFile f).data [] f)).data s).isSome =
      ((loadFrom initSt f).data s).isSome
    rw [isSome_loadFrom, isSome_loadFrom]
    show ((initSt.data s).isSome
        || (loadEvents [] (saveLines (loadFile f).data [] f)).any
          (fun e => e.1 == s)) =
      ((initSt.data s).isSome || (loadEvents [] f).any (fun e => e.1 == s))
    rw [hev, hasSec_map]
  have hlook : ∀ k, lookup2 (loadFile (saveLines (loadFile f).data [] f)).data s k
      = lookup2 (loadFile f).data s k := by
    intro k
    show lookup2 (loadFrom initSt (saveLines (loadFile f).data [] f)).data s k =
      lookup2 (loadFrom initSt f).data s k
    rw [lookup2_loadFrom, lookup2_loadFrom]
    have hbase : lookup2 initSt.data s k = (none : Option (List Char)) := rfl
    rw [hbase, orO_none_right, orO_none_right]
    show lastVal (loadEvents [] (saveLines (loadFile f).data [] f)) s k =
      lastVal (loadEvents [] f) s k
    rw [hev, lastVal_map]
    cases hl : lastVal (loadEvents [] f) s k with
    | none => rfl
    | some v =>
      simp only [Option.map_some']
      have hkD : lookup2 (loadFile f).data s k = some v := by
        show lookup2 (loadFrom initSt f).data s k = some v
        rw [lookup2_loadFrom, hbase, orO_none_right]
        exact hl
      rw [hkD]
      rfl
  cases hA : (loadFile (saveLines (loadFile f).data [] f)).data s with
  | none =>
    cases hB : (loadFile f).data s with
    | none => rfl
    | some m2 =>
      rw [hA, hB] at hsome
      simp at hsome
  | some m1 =>
    cases hB : (loadFile f).data s with
    | none =>
      rw [hA, hB] at hsome
      simp at hsome
    | some m2 =>
      congr 1
      funext k
      have hk := hlook k
      unfold lookup2 at hk
      rw [hA, hB] at hk
      exact hk

/-- The line the specification requires save to emit for one raw line:
comments, blanks, headers, separator-free lines and lines with an empty
key byte-for-byte; every key-value line with a non-empty key in the
normalized form key-space-equals-space-value with the current Entry
value. -/
def specOut (d : Table (List Char)) (cur line : List Char) : List Char :=
  let t := trim line
  if t = [] ∨ is_comment t then line
  else if t.head? = some '[' ∧ t.getLast? = some ']' then line
  else
    match findChar (fun c => c == '=') t with
    | none => line
    | some pos =>
      let key := trim (t.take pos)
      if key = [] then line
      else key ++ ' ' :: '=' :: ' ' :: (lookup2 d cur key).getD []

/-- The specified output of save over a whole file, tracking the
current section exactly as the parser does. -/
def specSave (d : Table (List Char)) (cur : List Char) :
    List (List Char) → List (List Char)
  | [] => []
  | line :: rest => specOut d cur line :: specSave d (lineNewCur cur line) rest

theorem saveOut_eq_specOut (d : Table (List Char)) (cur line : List Char)
    (h : ∀ e, lineEvent cur line = some e →
      (lookup2 d cur e.2.1).isSome = true) :
    saveOut d cur line = specOut d cur line := by
  unfold saveOut specOut
  by_cases h1 : trim line = [] ∨ is_comment (trim line)
  · simp [h1]
  · by_cases h2 : (trim line).head? = some '[' ∧ (trim line).getLast? = some ']'
    · simp [h1, h2]
    · cases h3 : findChar (fun c => c == '=') (trim line) with
      | none => simp [h1, h2, h3]
      | some pos =>
        by_cases h4 : trim ((trim line).take pos) = []
        · simp [h1, h2, h3, h4]
        · simp only [h1, h2, h3, h4, if_false, ite_false]
          have hev : lineEvent cur line = some
              (cur, trim ((trim line).take pos),
                match findChar (fun c => c == ';' || c == '#')
                    (trim ((trim line).drop (pos + 1))) with
                | none => trim ((trim line).drop (pos + 1))
                | some cpos =>
                  trim ((trim ((trim line).drop (pos + 1))).take cpos)) := by
            unfold lineEvent
            rw [if_neg h1, if_neg h2, h3]
            simp only [h4, ite_false, if_false]
          have hs := h _ hev
          obtain ⟨w, hw⟩ := Option.isSome_iff_exists.mp hs
          have hw2 : lookup2 d cur (trim ((trim line).take pos)) = some w := hw
          rw [hw2]
          rfl

theorem saveLines_eq_specSave (f : List (List Char)) (D : Table (List Char))
    (cur : List Char)
    (htrack : ∀ e ∈ loadEvents cur f, (lookup2 D e.1 e.2.1).isSome = true) :
    saveLines D cur f = specSave D cur f := by
  induction f generalizing cur with
  | nil => rfl
  | cons line rest ih =>
    rw [saveLines_cons]
    show _ = specOut D cur line :: specSave D (lineNewCur cur line) rest
    have hhead : ∀ e, lineEvent cur line = some e →
        (lookup2 D cur e.2.1).isSome = true := by
      intro e hev
      have hm : e ∈ loadEvents cur (line :: rest) := by
        simp only [loadEvents, hev]
        exact List.mem_cons_self e _
      have := htrack e hm
      rw [lineEvent_sec hev] at this
      exact this
    rw [saveOut_eq_specOut D cur line hhead]
    refine congrArg (List.cons _) ?_
    refine ih (lineNewCur cur line) ?_
    intro e2 he2
    refine htrack e2 ?_
    cases hev : lineEvent cur line with
    | none =>
      simp only [loadEvents, hev]
      exact he2
    | some e =>
      simp only [loadEvents, hev]
      exact List.mem_cons_of_mem e he2

theorem saveOut_untracked (d : Table (List Char)) {cur line : List Char}
    {e : List Char × List Char × List Char}
    (h : lineEvent cur line = some e)
    (hl : lookup2 d cur e.2.1 = none) :
    saveOut d cur line = line := by
  unfold lineEvent at h
  unfold saveOut
  by_cases h1 : trim line = [] ∨ is_comment (trim line)
  · simp [h1] at h
  · by_cases h2 : (trim line).head? = some '[' ∧ (trim line).getLast? = some ']'
    · simp [h1, h2] at h
    · cases h3 : findChar (fun c => c == '=') (trim line) with
      | none => simp [h1, h2, h3] at h
      | some pos =>
        by_cases h4 : trim ((trim line).take pos) = []
        · simp [h1, h2, h3, h4] at h
        · simp only [h1, h2, h3, h4, if_false, ite_false,
            Option.some.injEq] at h
          subst h
          simp only [h1, h2, h3, h4, if_false, ite_false]
          have hl2 : lookup2 d cur (trim ((trim line).take pos)) = none := hl
          rw [hl2]

theorem save_ignores_unmatched (f : List (List Char)) (d : Table (List Char))
    (cur sec key v : List Char)
    (h : ∀ e ∈ loadEvents cur f, ¬(e.1 = sec ∧ e.2.1 = key)) :
    saveLines (insert2 d sec key v) cur f = saveLines d cur f := by
  induction f generalizing cur with
  | nil => rfl
  | cons line rest ih =>
    rw [saveLines_cons, saveLines_cons]
    have htail : ∀ e2 ∈ loadEvents (lineNewCur cur line) rest,
        ¬(e2.1 = sec ∧ e2.2.1 = key) := by
      intro e2 he2
      refine h e2 ?_
      cases hev : lineEvent cur line with
      | none =>
        simp only [loadEvents, hev]
        exact he2
      | some e =>
        simp only [loadEvents, hev]
        exact List.mem_cons_of_mem e he2
    rw [ih (lineNewCur cur line) htail]
    refine congrArg (fun x => x :: saveLines d (lineNewCur cur line) rest) ?_
    cases hev : lineEvent cur line with
    | none => rw [saveOut_none _ hev, saveOut_none _ hev]
    | some e =>
      have hne : ¬(cur = sec ∧ e.2.1 = key) := by
        have hm := h e (by
          simp only [loadEvents, hev]
          exact List.mem_cons_self e _)
        rw [lineEvent_sec hev] at hm
        exact hm
      have hlk : lookup2 (insert2 d sec key v) cur e.2.1 =
          lookup2 d cur e.2.1 := by
        rw [lookup2_insert2, if_neg hne]
      cases hl : lookup2 d cur e.2.1 with
      | none =>
        rw [saveOut_untracked d hev hl,
          saveOut_untracked (insert2 d sec key v) hev (by rw [hlk, hl])]
      | some w =>
        rw [saveOut_some d hev hl,
          saveOut_some (insert2 d sec key v) hev (by rw [hlk, hl])]

theorem saveLines_length (d : Table (List Char)) (cur : List Char)
    (f : List (List Char)) : (saveLines d cur f).length = f.length := by
  induction f generalizing cur with
  | nil => rfl
  | cons line rest ih =>
    rw [saveLines_cons]
    simp [ih]

theorem preserve_untouched (post : List (List Char)) (st : St)
    (sec key v : List Char) (n : Nat)
    (hpost : ∀ e2 ∈ loadEvents st.cur post, ¬(e2.1 = sec ∧ e2.2.1 = key))
    (hd : lookup2 st.data sec key = some v)
    (hi : lookup2 st.index sec key = some n) :
    lookup2 (loadFrom st post).data sec key = some v ∧
      lookup2 (loadFrom st post).index sec key = some n := by
  induction post generalizing st with
  | nil => exact ⟨hd, hi⟩
  | cons l2 rest ih =>
    rw [loadFrom_cons]
    have hcur : (processLine st l2).cur = lineNewCur st.cur l2 :=
      processLine_cur st l2
    cases hev : lineEvent st.cur l2 with
    | none =>
      refine ih (processLine st l2) ?_ ?_ ?_
      · intro e2 he2
        refine hpost e2 ?_
        simp only [loadEvents, hev]
        rwa [hcur] at he2
      · rw [processLine_data, hev]
        exact hd
      · rw [processLine_index, hev]
        exact hi
    | some e2 =>
      have hne : ¬(e2.1 = sec ∧ e2.2.1 = key) := by
        refine hpost e2 ?_
        simp only [loadEvents, hev]
        exact List.mem_cons_self e2 _
      refine ih (processLine st l2) ?_ ?_ ?_
      · intro e3 he3
        refine hpost e3 ?_
        simp only [loadEvents, hev]
        rw [hcur] at he3
        exact List.mem_cons_of_mem e2 he3
      · rw [processLine_data, hev, lookup2_insert2,
          if_neg (fun hx => hne ⟨hx.1.symm, hx.2.symm⟩)]
        exact hd
      · rw [processLine_index, hev, lookup2_insert2,
          if_neg (fun hx => hne ⟨hx.1.symm, hx.2.symm⟩)]
        exact hi

theorem get_value_ok_iff (d : Table (List Char)) (fn sec key v : List Char) :
    get_value d fn sec key = .ok v ↔ lookup2 d sec key = some v := by
  unfold get_value lookup2
  cases hds : d sec with
  | none => simp
  | some inner =>
    cases hik : inner key with
    | none => simp [hik]
    | some w => simp [hik]

/-- The case-insensitive acceptance set of the specification for
boolean reads. -/
def matchesTrueCI (v : List Char) : Prop :=
  v.map Char.toLower = "true".data ∨ v.map Char.toLower = "t".data ∨
    v.map Char.toLower = "1".data

theorem string_to_bool_iff (v : List Char) :
    string_to_bool v = true ↔ matchesTrueCI v := by
  unfold string_to_bool matchesTrueCI
  simp [Bool.or_eq_true, or_assoc]

/-- The key the specification assigns to a separator line: the trimmed
text before the first equals sign. -/
def keySpec (t : List Char) : List Char :=
  trim (t.takeWhile (fun c => !(c == '=')))

/-- The raw value: the trimmed text after the first equals sign. -/
def rawValueSpec (t : List Char) : List Char :=
  trim ((t.dropWhile (fun c => !(c == '='))).drop 1)

/-- The stored value: the raw value truncated at the first inline
comment marker and re-trimmed. -/
def valueSpec (t : List Char) : List Char :=
  trim ((rawValueSpec t).takeWhile (fun c => !(c == ';' || c == '#')))

theorem takeWhile_all {p : Char → Bool} {l : List Char}
    (h : ∀ c ∈ l, p c = true) : l.takeWhile p = l := by
  induction l with
  | nil => rfl
  | cons a as ih =>
    rw [List.takeWhile_cons, if_pos (h a (by simp))]
    rw [ih fun c hc => h c (by simp [hc])]

theorem findChar_none_of_not_mem {t : List Char} (h : '=' ∉ t) :
    findChar (fun c => c == '=') t = none := by
  rw [findChar_none_iff]
  intro c hc
  exact beq_eq_false_iff_ne.mpr fun he => h (he ▸ hc)

theorem findChar_some_of_mem {t : List Char} (h : '=' ∈ t) :
    ∃ pos, findChar (fun c => c == '=') t = some pos := by
  cases hf : findChar (fun c => c == '=') t with
  | none =>
    have := findChar_none_iff.mp hf '=' h
    simp at this
  | some pos => exact ⟨pos, rfl⟩

/-- The full per-line behaviour of the load loop on a non-comment,
non-header line, phrased with the specification-side key and value. -/
theorem processLine_cases (st : St) (line : List Char)
    (hne : trim line ≠ [])
    (hcm : is_comment (trim line) = false)
    (hhd : ¬((trim line).head? = some '[' ∧ (trim line).getLast? = some ']')) :
    ('=' ∉ trim line →
      processLine st line = { st with lineNum := st.lineNum + 1 }) ∧
    ('=' ∈ trim line → keySpec (trim line) ≠ [] →
      (processLine st line).data =
          insert2 st.data st.cur (keySpec (trim line)) (valueSpec (trim line)) ∧
        (processLine st line).index =
          insert2 st.index st.cur (keySpec (trim line)) st.lineNum ∧
        (processLine st line).cur = st.cur ∧
        (processLine st line).lineNum = st.lineNum + 1) ∧
    ('=' ∈ trim line → keySpec (trim line) = [] →
      processLine st line = { st with lineNum := st.lineNum + 1 }) := by
  have h1 : ¬(trim line = [] ∨ is_comment (trim line)) := by
    rintro (h | h)
    · exact hne h
    · rw [hcm] at h
      exact Bool.false_ne_true h
  refine ⟨?_, ?_, ?_⟩
  · intro hno
    unfold processLine
    rw [if_neg h1, if_neg hhd, findChar_none_of_not_mem hno]
  · intro hyes hk
    obtain ⟨pos, hp⟩ := findChar_some_of_mem hyes
    have hkey : trim ((trim line).take pos) = keySpec (trim line) := by
      unfold keySpec
      rw [findChar_take_eq_takeWhile hp]
    have hraw : trim ((trim line).drop (pos + 1)) = rawValueSpec (trim line) := by
      unfold rawValueSpec
      rw [findChar_drop_eq hp]
    have hval : (match findChar (fun c => c == ';' || c == '#')
          (trim ((trim line).drop (pos + 1))) with
        | none => trim ((trim line).drop (pos + 1))
        | some cpos => trim ((trim ((trim line).drop (pos + 1))).take cpos)) =
        valueSpec (trim line) := by
      rw [hraw]
      unfold valueSpec
      cases hf : findChar (fun c => c == ';' || c == '#')
          (rawValueSpec (trim line)) with
      | none =>
        rw [takeWhile_all fun c hc => by
          simp only [Bool.not_eq_true']
          exact findChar_none_iff.mp hf c hc]
        unfold rawValueSpec
        rw [trim_idem]
      | some cpos =>
        show trim ((rawValueSpec (trim line)).take cpos) = _
        rw [findChar_take_eq_takeWhile hf]
    unfold processLine
    rw [if_neg h1, if_neg hhd, hp]
    simp only [hkey, hval]
    rw [if_neg hk]
    exact ⟨rfl, rfl, rfl, rfl⟩
  · intro hyes hk
    obtain ⟨pos, hp⟩ := findChar_some_of_mem hyes
    have hkey : trim ((trim line).take pos) = keySpec (trim line) := by
      unfold keySpec
      rw [findChar_take_eq_takeWhile hp]
    unfold processLine
    rw [if_neg h1, if_neg hhd, hp]
    simp only [hkey]
    rw [if_pos hk]

/-- Sample table for the get_value witness: one section A holding one
key k. -/
def dW7 : Table (List Char) :=
  insert2 emptyTable ("A".data) ("k".data) ("1".data)

/-- Sample table for the get_bool_value witness. -/
def dW8 : Table (List Char) :=
  insert2 emptyTable ("A".data) ("k".data) ("True".data)

/-- Sample store with pending changes for the commit witness. -/
def storeW9 : Store :=
  { filename := "a.ini".data, disk := none, data := emptyTable,
    index := emptyTable, lines := [("k = 1".data)], pending := true }

/-- Sample store with no filename for the failed-load witness. -/
def storeW10 : Store :=
  { filename := [], disk := some [], data := dW7,
    index := emptyTable, lines := [("k = 1".data)], pending := false }

/-- C1: loading a file and saving with no mutation in between emits
every comment, blank, header, separator-free and empty-key line
byte-for-byte, and every tracked key-value line in the normalized form
key-space-equals-space-value using the value of the Entry mapping,
regardless of the spacing in the original line. -/
theorem ini_save_round_trip_format (f : List (List Char)) :
    saveLines (loadFile f).data [] f = specSave (loadFile f).data [] f :=
  saveLines_eq_specSave f (loadFile f).data [] (tracked_all f initSt)

/-- C2: an entry whose (section, key) matches no key-value line of the
raw line buffer contributes nothing to the saved file: the output with
and without the entry is identical line for line and has exactly one
line per buffer line, while the entry itself stays in memory and is
returned by the getters. -/
theorem ini_new_entries_dropped_on_save (f : List (List Char))
    (d : Table (List Char)) (fn cur sec key v : List Char)
    (h : ∀ e ∈ loadEvents cur f, ¬(e.1 = sec ∧ e.2.1 = key)) :
    saveLines (insert2 d sec key v) cur f = saveLines d cur f ∧
      (saveLines (insert2 d sec key v) cur f).length = f.length ∧
      lookup2 (insert2 d sec key v) sec key = some v ∧
      get_value (insert2 d sec key v) fn sec key = .ok v := by
  refine ⟨save_ignores_unmatched f d cur sec key v h,
    saveLines_length _ _ _, ?_, ?_⟩
  · rw [lookup2_insert2, if_pos ⟨rfl, rfl⟩]
  · rw [get_value_ok_iff, lookup2_insert2, if_pos ⟨rfl, rfl⟩]

theorem ini_new_entries_dropped_witness :
    (∀ e ∈ loadEvents [] [("[A]".data), ("x = 1".data)],
      ¬(e.1 = ("A".data) ∧ e.2.1 = ("y".data))) ∧
      (saveLines (insert2 (loadFile [("[A]".data), ("x = 1".data)]).data
            ("A".data) ("y".data) ("2".data)) []
            [("[A]".data), ("x = 1".data)] =
          saveLines (loadFile [("[A]".data), ("x = 1".data)]).data []
            [("[A]".data), ("x = 1".data)] ∧
        (saveLines (insert2 (loadFile [("[A]".data), ("x = 1".data)]).data
            ("A".data) ("y".data) ("2".data)) []
            [("[A]".data), ("x = 1".data)]).length =
          [("[A]".data), ("x = 1".data)].length ∧
        lookup2 (insert2 (loadFile [("[A]".data), ("x = 1".data)]).data
            ("A".data) ("y".data) ("2".data)) ("A".data) ("y".data) =
          some ("2".data) ∧
        get_value (insert2 (loadFile [("[A]".data), ("x = 1".data)]).data
            ("A".data) ("y".data) ("2".data)) ("a.ini".data) ("A".data)
            ("y".data) = .ok ("2".data)) :=
  ⟨by decide,
    ini_new_entries_dropped_on_save [("[A]".data), ("x = 1".data)]
      (loadFile [("[A]".data), ("x = 1".data)]).data ("a.ini".data) []
      ("A".data) ("y".data) ("2".data) (by decide)⟩

/-- C3: on a non-empty, non-comment, non-header line, load keeps a
separator-free line inert; with a separator it takes the trimmed text
before the first equals sign as key and the trimmed text after it as
value, truncates the value at the first inline-comment marker and
re-trims, and records entry and line index exactly when the key is
non-empty, an empty key leaving the state unchanged. -/
theorem ini_parse_kv_line (st : St) (line : List Char)
    (hne : trim line ≠ [])
    (hcm : is_comment (trim line) = false)
    (hhd : ¬((trim line).head? = some '[' ∧
      (trim line).getLast? = some ']')) :
    ('=' ∉ trim line →
      processLine st line = { st with lineNum := st.lineNum + 1 }) ∧
    ('=' ∈ trim line → keySpec (trim line) ≠ [] →
      (processLine st line).data =
          insert2 st.data st.cur (keySpec (trim line))
            (valueSpec (trim line)) ∧
        (processLine st line).index =
          insert2 st.index st.cur (keySpec (trim line)) st.lineNum ∧
        (processLine st line).cur = st.cur ∧
        (processLine st line).lineNum = st.lineNum + 1) ∧
    ('=' ∈ trim line → keySpec (trim line) = [] →
      processLine st line = { st with lineNum := st.lineNum + 1 }) :=
  processLine_cases st line hne hcm hhd

theorem ini_parse_kv_line_witness :
    trim ("k = v ; c".data) ≠ [] ∧
      is_comment (trim ("k = v ; c".data)) = false ∧
      ¬((trim ("k = v ; c".data)).head? = some '[' ∧
        (trim ("k = v ; c".data)).getLast? = some ']') ∧
      '=' ∈ trim ("k = v ; c".data) ∧
      keySpec (trim ("k = v ; c".data)) ≠ [] ∧
      (processLine initSt ("k = v ; c".data)).data =
        insert2 initSt.data initSt.cur (keySpec (trim ("k = v ; c".data)))
          (valueSpec (trim ("k = v ; c".data))) :=
  ⟨by decide, by decide, by decide, by decide, by decide,
    ((ini_parse_kv_line initSt ("k = v ; c".data) (by decide) (by decide)
      (by decide)).2.1 (by decide) (by decide)).1⟩

/-- C4 counterexample: the claim says every line whose trimmed form
starts with an open bracket but does not end with a close bracket is
treated as inert content; the line of text open-bracket a equals b is
such a line, yet load records the entry with key open-bracket a and
value b, so it is not inert. -/
theorem ini_malformed_header_cex :
    (trim ("[a=b".data)).head? = some '[' ∧
      (trim ("[a=b".data)).getLast? ≠ some ']' ∧
      lookup2 (loadFile [("[a=b".data)]).data [] ("[a".data) =
        some ("b".data) := by decide

/-- C4 (amended): a line is recognized as a section header exactly when
its trimmed form starts with an open bracket and ends with a close
bracket; a line starting with an open bracket without the closing one
is not a header and never changes the current section, it is inert when
it contains no equals sign, and with an equals sign it is parsed as an
ordinary key-value line. -/
theorem ini_header_recognition (st : St) (line : List Char)
    (hne : trim line ≠ []) (hcm : is_comment (trim line) = false) :
    ((trim line).head? = some '[' ∧ (trim line).getLast? = some ']' →
      (processLine st line).cur = ((trim line).drop 1).dropLast ∧
        (processLine st line).data = st.data ∧
        (processLine st line).index = st.index) ∧
    (¬((trim line).head? = some '[' ∧ (trim line).getLast? = some ']') →
      (processLine st line).cur = st.cur) ∧
    ((trim line).head? = some '[' → (trim line).getLast? ≠ some ']' →
      '=' ∉ trim line →
      processLine st line = { st with lineNum := st.lineNum + 1 }) ∧
    ((trim line).head? = some '[' → (trim line).getLast? ≠ some ']' →
      '=' ∈ trim line → keySpec (trim line) ≠ [] →
      (processLine st line).data =
        insert2 st.data st.cur (keySpec (trim line))
          (valueSpec (trim line))) := by
  have h1 : ¬(trim line = [] ∨ is_comment (trim line)) := by
    rintro (h | h)
    · exact hne h
    · rw [hcm] at h
      exact Bool.false_ne_true h
  refine ⟨?_, ?_, ?_, ?_⟩
  · intro h
    unfold processLine
    rw [if_neg h1, if_pos h]
    exact ⟨rfl, rfl, rfl⟩
  · intro h
    rw [processLine_cur]
    unfold lineNewCur
    rw [if_neg h1, if_neg h]
  · intro hA hB hno
    exact (processLine_cases st line hne hcm (fun hx => hB hx.2)).1 hno
  · intro hA hB hyes hk
    exact ((processLine_cases st line hne hcm
      (fun hx => hB hx.2)).2.1 hyes hk).1

theorem ini_header_recognition_witness :
    trim ("[Foo] ; c".data) ≠ [] ∧
      is_comment (trim ("[Foo] ; c".data)) = false ∧
      (trim ("[Foo] ; c".data)).head? = some '[' ∧
      (trim ("[Foo] ; c".data)).getLast? ≠ some ']' ∧
      '=' ∉ trim ("[Foo] ; c".data) ∧
      processLine initSt ("[Foo] ; c".data) =
        { initSt with lineNum := initSt.lineNum + 1 } :=
  ⟨by decide, by decide, by decide, by decide, by decide,
    (ini_header_recognition initSt ("[Foo] ; c".data) (by decide)
      (by decide)).2.2.1 (by decide) (by decide) (by decide)⟩

/-- C5: when a line of a file parses as a tracked key-value line for
(section, key), and no line after it records an entry for that same
(section, key) under the parser's own section tracking - later lines
may freely reuse the key text in other sections - the Entry mapping
holds that occurrence's value and the line index holds that
occurrence's zero-based line number, whatever earlier occurrences of
the key the prefix contained. -/
theorem ini_last_occurrence_wins (pre : List (List Char)) (l : List Char)
    (post : List (List Char)) (sec key v : List Char)
    (hev : lineEvent (loadFile pre).cur l = some (sec, key, v))
    (hpost : ∀ e2 ∈ loadEvents (loadFile pre).cur post,
      ¬(e2.1 = sec ∧ e2.2.1 = key)) :
    lookup2 (loadFile (pre ++ l :: post)).data sec key = some v ∧
      lookup2 (loadFile (pre ++ l :: post)).index sec key =
        some pre.length := by
  have h1 : loadFile (pre ++ l :: post) =
      loadFrom (processLine (loadFile pre) l) post := by
    show loadFrom initSt (pre ++ l :: post) = _
    rw [loadFrom_append]
    rfl
  rw [h1]
  have hcur2 : (processLine (loadFile pre) l).cur = (loadFile pre).cur := by
    rw [processLine_cur]
    exact lineEvent_newCur hev
  refine preserve_untouched post _ sec key v pre.length ?_ ?_ ?_
  · rw [hcur2]
    exact hpost
  · rw [processLine_data, hev, lookup2_insert2, if_pos ⟨rfl, rfl⟩]
  · rw [processLine_index, hev, lookup2_insert2, if_pos ⟨rfl, rfl⟩]
    have h2 : (loadFile pre).lineNum = pre.length := by
      show (loadFrom initSt pre).lineNum = pre.length
      rw [loadFrom_lineNum]
      simp [initSt]
    rw [h2]

theorem ini_last_occurrence_wins_witness :
    lineEvent (loadFile [("[A]".data), ("k=1".data)]).cur ("k=2".data) =
        some (("A".data), ("k".data), ("2".data)) ∧
      (∀ e2 ∈ loadEvents (loadFile [("[A]".data), ("k=1".data)]).cur
          [("[B]".data), ("k=3".data)],
        ¬(e2.1 = ("A".data) ∧ e2.2.1 = ("k".data))) ∧
      lookup2 (loadFile ([("[A]".data), ("k=1".data)] ++
          ("k=2".data) :: [("[B]".data), ("k=3".data)])).data
          ("A".data) ("k".data) = some ("2".data) ∧
      lookup2 (loadFile ([("[A]".data), ("k=1".data)] ++
          ("k=2".data) :: [("[B]".data), ("k=3".data)])).index
          ("A".data) ("k".data) = some 2 :=
  ⟨by decide, by decide,
    (ini_last_occurrence_wins [("[A]".data), ("k=1".data)] ("k=2".data)
      [("[B]".data), ("k=3".data)] ("A".data) ("k".data) ("2".data)
      (by decide) (by decide)).1,
    (ini_last_occurrence_wins [("[A]".data), ("k=1".data)] ("k=2".data)
      [("[B]".data), ("k=3".data)] ("A".data) ("k".data) ("2".data)
      (by decide) (by decide)).2⟩

/-- C6 counterexample: for the single-line file open-bracket a space
equals space b close-bracket semicolon x, the first load records the
entry with key open-bracket a, but its normalized saved form re-parses
as a section header, so reloading the saved file loses the entry and
the claimed equality of Entry mappings fails. -/
theorem ini_reload_cex :
    lookup2 (loadFile [("[a = b] ; x".data)]).data [] ("[a".data) =
        some ("b]".data) ∧
      lookup2 (loadFile (saveLines (loadFile [("[a = b] ; x".data)]).data []
          [("[a = b] ; x".data)])).data [] ("[a".data) = none := by decide

/-- C6 (amended): load, save, load with no mutation yields the same
Entry mapping as the first load, provided no tracked line has a key
beginning with an open bracket together with a stored value ending with
a close bracket (the one shape whose normalized form re-parses as a
section header). -/
theorem ini_reload_idempotent (f : List (List Char))
    (hhd : ∀ e ∈ loadEvents [] f,
      ¬(e.2.1.head? = some '[' ∧
        ((lookup2 (loadFile f).data e.1 e.2.1).getD []).getLast? =
          some ']')) :
    (loadFile (saveLines (loadFile f).data [] f)).data =
      (loadFile f).data :=
  load_save_load f hhd

theorem ini_reload_idempotent_witness :
    (∀ e ∈ loadEvents [] [("[A]".data), ("k = 1 ; c".data)],
      ¬(e.2.1.head? = some '[' ∧
        ((lookup2 (loadFile [("[A]".data), ("k = 1 ; c".data)]).data e.1
          e.2.1).getD []).getLast? = some ']')) ∧
      (loadFile (saveLines (loadFile [("[A]".data), ("k = 1 ; c".data)]).data
          [] [("[A]".data), ("k = 1 ; c".data)])).data =
        (loadFile [("[A]".data), ("k = 1 ; c".data)]).data :=
  ⟨by decide, ini_reload_idempotent [("[A]".data), ("k = 1 ; c".data)]
    (by decide)⟩

/-- C7: get_value fails with the missing-section message when the
section is absent, fails with the missing-key message when the section
exists without the key, succeeds on a present entry, and the two
failure messages are distinct for every choice of section, key and
filename, so the caller can always tell the two conditions apart. -/
theorem ini_get_value_errors (d : Table (List Char)) (fn sec key : List Char) :
    (d sec = none → get_value d fn sec key = .error (section_err sec fn)) ∧
    (∀ inner, d sec = some inner → inner key = none →
      get_value d fn sec key = .error (key_err key sec)) ∧
    (∀ v, lookup2 d sec key = some v → get_value d fn sec key = .ok v) ∧
    (∀ s2 f2 k2 s3, section_err s2 f2 ≠ key_err k2 s3) := by
  refine ⟨?_, ?_, ?_, ?_⟩
  · intro h
    simp [get_value, h]
  · intro inner h hk
    simp [get_value, h, hk]
  · intro v hv
    exact (get_value_ok_iff d fn sec key v).mpr hv
  · intro s2 f2 k2 s3 hEq
    unfold section_err key_err at hEq
    have h1 : "Error retrieving [".data =
        "Error retrieving ".data ++ ['['] := by decide
    have h2 : "Error retrieving \x27".data =
        "Error retrieving ".data ++ ['\x27'] := by decide
    rw [h1, h2] at hEq
    simp only [List.append_assoc] at hEq
    have h3 := List.append_cancel_left hEq
    simp at h3

theorem ini_get_value_errors_witness :
    dW7 ("B".data) = none ∧
      get_value dW7 ("a.ini".data) ("B".data) ("x".data) =
        .error (section_err ("B".data) ("a.ini".data)) ∧
      section_err ("B".data) ("a.ini".data) ≠ key_err ("x".data) ("B".data) :=
  ⟨rfl,
    (ini_get_value_errors dW7 ("a.ini".data) ("B".data) ("x".data)).1 rfl,
    (ini_get_value_errors dW7 ("a.ini".data) ("B".data) ("x".data)).2.2.2
      ("B".data) ("a.ini".data) ("x".data) ("B".data)⟩

/-- C8: on a present entry, get_bool_value returns the boolean coercion
of the stored string, which is true exactly when the string matches
true, t or 1 case-insensitively, and is the ok value false, never an
error, for every other string. -/
theorem ini_get_bool_value_spec (d : Table (List Char))
    (fn sec key v : List Char) (h : lookup2 d sec key = some v) :
    get_bool_value d fn sec key = .ok (string_to_bool v) ∧
      (get_bool_value d fn sec key = .ok true ↔ matchesTrueCI v) ∧
      (¬matchesTrueCI v → get_bool_value d fn sec key = .ok false) := by
  have hok : get_value d fn sec key = .ok v :=
    (get_value_ok_iff d fn sec key v).mpr h
  have h1 : get_bool_value d fn sec key = .ok (string_to_bool v) := by
    unfold get_bool_value
    rw [hok]
    rfl
  refine ⟨h1, ?_, ?_⟩
  · rw [h1]
    constructor
    · intro hx
      have hx2 : string_to_bool v = true := by simpa using hx
      exact (string_to_bool_iff v).mp hx2
    · intro hm
      rw [(string_to_bool_iff v).mpr hm]
  · intro hm
    rw [h1]
    have hb : string_to_bool v = false := by
      cases hb2 : string_to_bool v
      · rfl
      · exact absurd ((string_to_bool_iff v).mp hb2) hm
    rw [hb]

theorem ini_get_bool_value_witness :
    lookup2 dW8 ("A".data) ("k".data) = some ("True".data) ∧
      get_bool_value dW8 ("a.ini".data) ("A".data) ("k".data) =
        .ok (string_to_bool ("True".data)) :=
  ⟨by decide,
    (ini_get_bool_value_spec dW8 ("a.ini".data) ("A".data) ("k".data)
      ("True".data) (by decide)).1⟩

/-- C9: commit_changes is a pure no-op when no changes are pending;
with the flag set and a usable filename it performs exactly one save of
the raw line buffer against the entry table and clears the flag; with
the flag set and no filename the save failure propagates and the state,
flag included, is untouched. -/
theorem ini_commit_changes_spec (st : Store) :
    (st.pending = false → commit_changes st = (none, st)) ∧
    (st.pending = true → st.filename ≠ [] →
      commit_changes st =
        (none, { st with
          disk := some (saveLines st.data [] st.lines),
          pending := false })) ∧
    (st.pending = true → st.filename = [] →
      commit_changes st =
        (some ("Null value filename passed for save.".data), st)) := by
  refine ⟨?_, ?_, ?_⟩
  · intro h
    simp [commit_changes, h]
  · intro h hf
    simp [commit_changes, save_store, h, hf]
  · intro h hf
    simp [commit_changes, save_store, h, hf]

theorem ini_commit_changes_witness :
    storeW9.pending = true ∧ storeW9.filename ≠ [] ∧
      commit_changes storeW9 =
        (none, { storeW9 with
          disk := some (saveLines storeW9.data [] storeW9.lines),
          pending := false }) :=
  ⟨rfl, by decide,
    (ini_commit_changes_spec storeW9).2.1 rfl (by decide)⟩

/-- C10: whenever load fails, because no filename is set or the file
cannot be opened, the store is returned exactly as it was: the clearing
and rebuild of data, lines and index happen only after both guard
checks pass, so a failed load never discards previously loaded data. -/
theorem ini_load_failure_keeps_state (st : Store)
    (h : st.filename = [] ∨ st.disk = none) :
    (load_store st).1.isSome = true ∧ (load_store st).2 = st := by
  unfold load_store
  rcases h with h | h
  · simp [h]
  · by_cases hf : st.filename = []
    · simp [hf]
    · simp [hf, h]

theorem ini_load_failure_witness :
    (storeW10.filename = [] ∨ storeW10.disk = none) ∧
      (load_store storeW10).1.isSome = true ∧
      (load_store storeW10).2 = storeW10 :=
  ⟨Or.inl rfl,
    (ini_load_failure_keeps_state storeW10 (Or.inl rfl)).1,
    (ini_load_failure_keeps_state storeW10 (Or.inl rfl)).2⟩
